import Mathlib

/-!
Verification of the tag/category parsing and filtering subsystem of the
TaskTracker repository (src/tasker.py) against its specification.

The Python functions are shallowly embedded as Lean functions over
`String`/`List Char`; Python dict-or-string task records become the
inductive type `TaskRec`; code paths on which Python would raise an
exception are modelled with `Option` (`none` = raise).
-/

namespace TaskTracker

/-! ## Character classes and Python string primitives -/

/-- An ASCII lowercase letter `[a-z]`. -/
def isLowerAlpha (c : Char) : Bool := 'a' ≤ c && c ≤ 'z'

/-- An ASCII uppercase letter `[A-Z]`. -/
def isUpperAlpha (c : Char) : Bool := 'A' ≤ c && c ≤ 'Z'

/-- An ASCII digit `[0-9]`. -/
def isDigitChar (c : Char) : Bool := '0' ≤ c && c ≤ '9'

/-- The character class `[A-Za-z0-9_-]` used by every tag regex in
src/tasker.py (`parse_tags`, `validate_tag_format`). -/
def isTagChar (c : Char) : Bool :=
  isLowerAlpha c || isUpperAlpha c || isDigitChar c || c == '_' || c == '-'

/-- The lowercase part of the tag character class, `[a-z0-9_-]`: what a tag
character becomes after Python `str.lower()`. -/
def isLowerTagChar (c : Char) : Bool :=
  isLowerAlpha c || isDigitChar c || c == '_' || c == '-'

/-- Python `str.lower()` on one character. The tokens this model lowers are
always drawn from the ASCII class `[A-Za-z0-9_-]`, so mapping `A`-`Z` to
`a`-`z` and fixing everything else is a faithful model. -/
def lowerChar (c : Char) : Char :=
  if isUpperAlpha c then Char.ofNat (c.toNat + 32) else c

/-- Python `str.lower()` on a (class-only, hence ASCII) token. -/
def pyLower (s : String) : String := String.mk (s.data.map lowerChar)

/-- An ASCII whitespace character, as stripped by Python `str.strip()`
(the records and filter strings the claims quantify over are ASCII). -/
def isPySpace (c : Char) : Bool :=
  c == ' ' || c == '\t' || c == '\n' || c == '\r' ||
    c == '\x0b' || c == '\x0c'

/-- Python `str.strip()`: drop leading and trailing whitespace. -/
def pyStrip (cs : List Char) : List Char :=
  ((cs.dropWhile isPySpace).reverse.dropWhile isPySpace).reverse

/-- Python `filter_str.split(",")`: split at every comma, keeping empty
pieces, so the empty input gives one empty piece. -/
def splitOnComma : List Char → List (List Char)
  | [] => [[]]
  | c :: rest =>
    if c = ',' then [] :: splitOnComma rest
    else
      match splitOnComma rest with
      | [] => [[c]]
      | g :: gs => (c :: g) :: gs

/-- A lowercase hexadecimal digit, as produced by Python `uuid.uuid4().hex`. -/
def isHexChar (c : Char) : Bool :=
  ('0' ≤ c && c ≤ '9') || ('a' ≤ c && c ≤ 'f')

/-! ## The tag scanner: `re.findall` for the two tag regexes

`re.findall(r'@([a-zA-Z0-9_-]+)', text)` scans `text` left to right; at a
sigil it captures the maximal non-empty run of class characters after it
and resumes after that run; a sigil with no class character after it matches
nothing and the scan moves on by one character.  The scanner is written
with a fuel argument (one unit per consumed character) so that it is
structurally recursive and kernel-evaluable; `findSigilTokens` supplies
the sufficient fuel `cs.length`. -/

/-- Fuelled left-to-right regex scan for `sigil([A-Za-z0-9_-]+)`. -/
def findSigilTokensF (sigil : Char) : Nat → List Char → List String
  | _, [] => []
  | 0, _ :: _ => []
  | fuel + 1, c :: rest =>
    if c = sigil then
      let tok := rest.takeWhile isTagChar
      if tok.isEmpty then findSigilTokensF sigil fuel rest
      else String.mk tok :: findSigilTokensF sigil fuel (rest.drop tok.length)
    else findSigilTokensF sigil fuel rest

/-- All capture groups of `re.findall(/sigil([A-Za-z0-9_-]+)/, cs)` in
left-to-right order. -/
def findSigilTokens (sigil : Char) (cs : List Char) : List String :=
  findSigilTokensF sigil cs.length cs

/-- Python `list(dict.fromkeys(xs))` as used in `parse_tags` and
`parse_filter_categories`: walk the list keeping a set of already-seen
elements; the first occurrence of each element survives, in order. -/
def dedupSeen {α : Type} [DecidableEq α] (seen : List α) : List α → List α
  | [] => []
  | x :: xs =>
    if x ∈ seen then dedupSeen seen xs else x :: dedupSeen (x :: seen) xs

/-- Python `list(dict.fromkeys(xs))`: duplicates removed, first occurrence
determines the order. -/
def dedupFirst {α : Type} [DecidableEq α] (xs : List α) : List α :=
  dedupSeen [] xs

/-! ## `parse_tags` (src/tasker.py lines 393-425) -/

/-- Models `parse_tags`: returns the original text, the `@`-categories and
the `#`-tags, each list lowercased and deduplicated keeping first
occurrences.  Empty text returns two empty lists (`if not task_text`). -/
def parse_tags (task_text : String) : String × List String × List String :=
  if task_text.data.isEmpty then (task_text, [], [])
  else
    let categories := (findSigilTokens '@' task_text.data).map pyLower
    let tags := (findSigilTokens '#' task_text.data).map pyLower
    (task_text, dedupFirst categories, dedupFirst tags)

/-! ## `validate_tag_format` (src/tasker.py lines 428-451) -/

/-- Models `validate_tag_format`: empty and over-50-character tokens are
rejected, then the token is matched against `^[a-zA-Z0-9_-]+$` with
`re.match`.  Python `$` also matches just before a single trailing
newline, so a class-only token followed by one final `\n` is accepted;
the second disjunct models that quirk faithfully. -/
def validate_tag_format (tag : String) : Bool :=
  if tag.data.isEmpty then false
  else if tag.length > 50 then false
  else
    tag.data.all isTagChar ||
      (tag.data.getLast? == some '\n' &&
        !tag.data.dropLast.isEmpty && tag.data.dropLast.all isTagChar)

/-! ## Task records

A stored task record in src/tasker.py is duck-typed: a plain string (very
old format), or a dict with some of the keys `task`, `categories`, `tags`,
`ts` — and in a done-list entry the `task` value may itself be a string or
a dict (one level of historical nesting).  `TaskRec` models exactly that
union; absent dict keys are `none`. -/

inductive TaskRec where
  | str (s : String)
  | dict (task : Option TaskRec) (categories : Option (List String))
      (tg : Option (List String)) (ts : Option String)

/-- The category-extraction branching that `filter_tasks_by_categories`
and `filter_single_task_by_categories` (src/tasker.py lines 668-754) both
perform verbatim on one record: a stored `categories` field wins; a dict
with only a `task` field is unwrapped — a nested dict uses its stored
`categories` or, failing that, parses its `task` text; a plain string or
a dict whose `task` is a string is parsed on the fly.  `none` models the
two branches where Python would not produce a category list from stored
data: a nested dict without `categories` whose `task` field is missing or
again a dict (Python raises KeyError/TypeError at
`parse_tags(task["task"]["task"])`), and a dict with neither `categories`
nor `task` (Python falls back to `parse_tags(str(task))`, stringifying
the dict itself — no stored record has that shape and it is not
modelled). -/
def task_categories_of : TaskRec → Option (List String)
  | .str s => some (parse_tags s).2.1
  | .dict t cats _ _ =>
    match cats with
    | some cs => some cs
    | none =>
      match t with
      | none => none
      | some (.str s) => some (parse_tags s).2.1
      | some (.dict innerTask innerCats _ _) =>
        match innerCats with
        | some cs => some cs
        | none =>
          match innerTask with
          | some (.str s) => some (parse_tags s).2.1
          | _ => none

/-- Models `filter_single_task_by_categories` (src/tasker.py lines
715-754): an empty filter matches everything; otherwise the record
matches iff any filter category occurs in the record categories
(`any(cat in task_categories for cat in filter_categories)`). -/
def filter_single_task_by_categories (task : TaskRec)
    (filter_categories : List String) : Option Bool :=
  if filter_categories.isEmpty then some true
  else
    (task_categories_of task).map
      (fun task_categories =>
        filter_categories.any (fun cat => task_categories.contains cat))

/-- The loop of `filter_tasks_by_categories`: keep, in order, the tasks
any of whose categories is requested; a record on which the extraction
raises makes the whole call raise (`none`). -/
def filterTasksGo (filter_categories : List String) :
    List TaskRec → Option (List TaskRec)
  | [] => some []
  | t :: ts =>
    match task_categories_of t with
    | none => none
    | some tcs =>
      match filterTasksGo filter_categories ts with
      | none => none
      | some rest =>
        some (if filter_categories.any (fun cat => tcs.contains cat)
              then t :: rest else rest)

/-- Models `filter_tasks_by_categories` (src/tasker.py lines 668-713):
with no filter the input list is returned as-is, otherwise the matching
records in their original order. -/
def filter_tasks_by_categories (tasks : List TaskRec)
    (filter_categories : List String) : Option (List TaskRec) :=
  if filter_categories.isEmpty then some tasks
  else filterTasksGo filter_categories tasks

/-! ## `parse_filter_categories` (src/tasker.py lines 614-665) -/

/-- The error message for a filter piece without a leading `@`
(f-string at src/tasker.py line 648). -/
def missingSigilMsg (cat : String) : String :=
  "Categories must start with @. Invalid: \x27" ++ cat ++ "\x27"

/-- The error message for a filter piece whose name fails
`validate_tag_format` (f-string at src/tasker.py line 655). -/
def invalidFormatMsg (cat : String) : String :=
  "Invalid category format: \x27" ++ cat ++
    "\x27. Use letters, numbers, underscores, and hyphens only."

/-- Python `cat.startswith("@")`. -/
def startsWithAt (p : String) : Bool :=
  match p.data with
  | '@' :: _ => true
  | _ => false

/-- Python `cat[1:]`: the string without its first character. -/
def dropFirst (p : String) : String := String.mk p.data.tail

/-- The `for cat in raw_categories` loop of `parse_filter_categories`:
fail fast on the first piece without `@` or with an invalid name,
otherwise collect the lowercased names and deduplicate at the end. -/
def parseFilterGo (acc : List String) :
    List String → Bool × List String × String
  | [] => (true, dedupFirst acc, "")
  | cat :: rest =>
    if !(startsWithAt cat) then (false, [], missingSigilMsg cat)
    else
      let cat_name := dropFirst cat
      if !(validate_tag_format cat_name) then (false, [], invalidFormatMsg cat)
      else parseFilterGo (acc ++ [pyLower cat_name]) rest

/-- The comma-separated pieces of a filter string after stripping
whitespace and discarding empties (src/tasker.py lines 634-638). -/
def filterPieces (s : String) : List String :=
  ((splitOnComma s.data).map (fun g => String.mk (pyStrip g))).filter
    (fun p => !p.data.isEmpty)

/-- Models `parse_filter_categories` (src/tasker.py lines 614-665).
Returns `(is_valid, categories, error_message)`.  The argument is an
`Option` because Python callers pass `None` for an absent filter and the
function treats `None` and the empty string alike (`if not filter_str`). -/
def parse_filter_categories (filter_str : Option String) :
    Bool × List String × String :=
  match filter_str with
  | none => (true, [], "")
  | some s =>
    if s.data.isEmpty then (true, [], "")
    else
      let raw := filterPieces s
      if raw.isEmpty then (true, [], "")
      else parseFilterGo [] raw

/-! ## `migrate_task_to_tagged_format` (src/tasker.py lines 758-781) -/

/-- Models `migrate_task_to_tagged_format`: a dict already carrying both
`categories` and `tags` is returned unchanged; otherwise the `task` text
(defaulting to the empty string when the key is missing) is parsed and
both fields are set on a copy.  `none` models the raise on a nested dict
`task` value (`parse_tags` on a non-string raises TypeError) and the
non-dict argument shape, which the caller never passes. -/
def migrate_task_to_tagged_format : TaskRec → Option TaskRec
  | .str _ => none
  | .dict t cats tg ts =>
    match cats, tg with
    | some cs, some tgs => some (.dict t (some cs) (some tgs) ts)
    | _, _ =>
      match t with
      | some (.dict _ _ _ _) => none
      | some (.str s) =>
          some (.dict t (some (parse_tags s).2.1) (some (parse_tags s).2.2) ts)
      | none =>
          some (.dict t (some (parse_tags "").2.1) (some (parse_tags "").2.2) ts)

/-! ## Completion (src/tasker.py lines 315-335, 494-511) -/

/-- Models `create_task_data`: the canonical dict built from a task text,
with the parsed categories and tags and a creation timestamp (Python
takes `datetime.now()`; the instant is the `now` parameter here). -/
def create_task_data (task_text : String) (now : String) : TaskRec :=
  .dict (some (.str (parse_tags task_text).1))
    (some (parse_tags task_text).2.1)
    (some (parse_tags task_text).2.2)
    (some now)

/-- A done-list entry `{id, task, ts}` as built by
`complete_current_task`. -/
structure DoneItem where
  id : String
  task : TaskRec
  ts : String

/-- One day bucket `{todo, done}` of the store. -/
structure DayBucket where
  todo : Option TaskRec
  done : List DoneItem

/-- Models `complete_current_task` (src/tasker.py lines 315-335): the
active task (kept as-is when it is already a dict, wrapped by
`create_task_data` when it is a legacy string) is appended to the done
list under a fresh id `uuid.uuid4().hex[:8]` with the completion
timestamp, and the active task is cleared.  The nondeterministic inputs
are parameters: `uuidHex` is the 32-character `uuid4().hex` string and
`now` the completion instant.  `none` models the cases the caller
`cmd_done` never reaches: no active task (guarded by
`if not today["todo"]`) and a dict without a `task` key (Python would
raise KeyError at `task_data["task"]`). -/
def complete_current_task (today : DayBucket) (uuidHex : String)
    (now : String) : Option DayBucket :=
  match today.todo with
  | none => none
  | some rec =>
    let task_data : Option TaskRec :=
      match rec with
      | .str s => some (create_task_data s now)
      | .dict t cs tg ts =>
        match t with
        | none => none
        | some _ => some (.dict t cs tg ts)
    match task_data with
    | none => none
    | some td =>
      some { todo := none
             done := today.done ++
               [{ id := String.mk (uuidHex.data.take 8), task := td, ts := now }] }

/-! ## Task-name validation (src/tasker.py lines 119-143, 516-544) -/

/-- Models `validate_task_name`: rejects empty input, whitespace-only
input, input whose stripped form exceeds `Config.MAX_TASK_LENGTH = 500`
characters, and input containing a line break. -/
def validate_task_name (task : String) : Bool × String :=
  if task.data.isEmpty then (false, "Task name cannot be empty.")
  else
    let ts := pyStrip task.data
    if ts.isEmpty then (false, "Task name cannot be only whitespace.")
    else if ts.length > 500 then
      (false, "Task name too long (max 500 characters).")
    else if ts.contains '\n' || ts.contains '\r' then
      (false, "Task name cannot contain line breaks.")
    else (true, "")

/-- Models `validate_task_name_with_tags`: basic validation first, then
every parsed category and tag must pass `validate_tag_format`; the first
offender is reported. -/
def validate_task_name_with_tags (task : String) : Bool × String :=
  match validate_task_name task with
  | (false, msg) => (false, msg)
  | (true, _) =>
    let cats := (parse_tags task).2.1
    let tgs := (parse_tags task).2.2
    match cats.find? (fun c => !(validate_tag_format c)) with
    | some c =>
      (false, "Invalid category format: @" ++ c ++
        ". Use only letters, numbers, underscores, and hyphens.")
    | none =>
      match tgs.find? (fun t => !(validate_tag_format t)) with
      | some t =>
        (false, "Invalid tag format: #" ++ t ++
          ". Use only letters, numbers, underscores, and hyphens.")
      | none => (true, "")

/-! ## Specification-side models

These definitions are written from the words of the specification (and of
the claims), not from the Python source; the claim theorems compare the
source embeddings above against them. -/

/-- Written from the spec of §4.1: a left-to-right scan of the text that,
at each sigil followed by one-or-more class characters, collects that
maximal token and resumes after it; a bare sigil contributes nothing.
Formulated as a tail-recursive accumulator scan, unlike the fuelled
source embedding `findSigilTokensF`. -/
def specScanAux (sigil : Char) : List Char → List String → List String
  | [], acc => acc.reverse
  | c :: rest, acc =>
    if c = sigil ∧ rest.takeWhile isTagChar ≠ [] then
      specScanAux sigil (rest.drop (rest.takeWhile isTagChar).length)
        (String.mk (rest.takeWhile isTagChar) :: acc)
    else specScanAux sigil rest acc
termination_by cs _ => cs.length
decreasing_by
  · simpa using Nat.sub_lt_succ rest.length (rest.takeWhile isTagChar).length
  · simp

/-- The tokens of the spec-side scan, in the order found. -/
def specScanTokens (sigil : Char) (cs : List Char) : List String :=
  specScanAux sigil cs []

/-- Written from the spec: duplicates are removed and the first occurrence
determines the order — keep the head and erase its later occurrences. -/
def specDedup {α : Type} [DecidableEq α] : List α → List α
  | [] => []
  | x :: xs => x :: specDedup (xs.filter (fun y => y ≠ x))
termination_by l => l.length
decreasing_by
  exact Nat.lt_succ_of_le (List.length_filter_le _ _)

/-- The record shapes enumerated by claim C2: a plain string, a dict with
a stored `categories` field, a dict with a string `task` field, and a
done entry whose `task` field is itself one of the dict shapes. -/
def specShaped : TaskRec → Bool
  | .str _ => true
  | .dict t cats _ _ =>
    match cats with
    | some _ => true
    | none =>
      match t with
      | none => false
      | some (.str _) => true
      | some (.dict innerTask innerCats _ _) =>
        match innerCats with
        | some _ => true
        | none =>
          match innerTask with
          | some (.str _) => true
          | _ => false

/-- Written from claim C2: the record categories are the stored
`categories` field when present (after unwrapping a done entry), and
otherwise the Tag Parser run on the record text on the fly. -/
def specRecordCategories : TaskRec → List String
  | .str s => (parse_tags s).2.1
  | .dict t cats _ _ =>
    match cats with
    | some cs => cs
    | none =>
      match t with
      | none => []
      | some (.str s) => (parse_tags s).2.1
      | some (.dict innerTask innerCats _ _) =>
        match innerCats with
        | some cs => cs
        | none =>
          match innerTask with
          | some (.str s) => (parse_tags s).2.1
          | _ => []

/-- The active-task shapes on which completion is claimed (and on which
the Python code does not raise): a legacy plain string, or a dict that
has a `task` key. -/
def completableShape : TaskRec → Bool
  | .str _ => true
  | .dict t _ _ _ =>
    match t with
    | none => false
    | some _ => true

/-- Written from claim C7: the text reconstructed from parsed tag sets —
each category re-prefixed with `@`, each tag with `#`, joined by
spaces. -/
def joinSpaces : List String → String
  | [] => ""
  | [x] => x
  | x :: xs => x ++ " " ++ joinSpaces xs

/-- The reconstructed tag text of claim C7. -/
def reconString (cats tgs : List String) : String :=
  joinSpaces (cats.map (fun c => "@" ++ c) ++ tgs.map (fun t => "#" ++ t))

/-- Proof-side view of the reconstructed text: the character list of a
space-joined sequence of sigil-prefixed tokens. -/
def reconChars : List (Char × String) → List Char
  | [] => []
  | [(sig, tok)] => sig :: tok.data
  | (sig, tok) :: rest => sig :: tok.data ++ ' ' :: reconChars rest

/-! ## Character-level lemmas -/

theorem isLowerAlpha_toNat {c : Char} (h : isLowerAlpha c = true) :
    97 ≤ c.toNat ∧ c.toNat ≤ 122 := by
  simp only [isLowerAlpha, Bool.and_eq_true, decide_eq_true_eq] at h
  exact ⟨h.1, h.2⟩

theorem isUpperAlpha_toNat {c : Char} (h : isUpperAlpha c = true) :
    65 ≤ c.toNat ∧ c.toNat ≤ 90 := by
  simp only [isUpperAlpha, Bool.and_eq_true, decide_eq_true_eq] at h
  exact ⟨h.1, h.2⟩

theorem isDigitChar_toNat {c : Char} (h : isDigitChar c = true) :
    48 ≤ c.toNat ∧ c.toNat ≤ 57 := by
  simp only [isDigitChar, Bool.and_eq_true, decide_eq_true_eq] at h
  exact ⟨h.1, h.2⟩

theorem isLowerTagChar_isTagChar {c : Char} (h : isLowerTagChar c = true) :
    isTagChar c = true := by
  simp only [isLowerTagChar, Bool.or_eq_true] at h
  simp only [isTagChar, Bool.or_eq_true]
  tauto

theorem isLowerTagChar_not_upper {c : Char} (h : isLowerTagChar c = true) :
    isUpperAlpha c = false := by
  by_cases hu : isUpperAlpha c = true
  · exfalso
    obtain ⟨h1, h2⟩ := isUpperAlpha_toNat hu
    simp only [isLowerTagChar, Bool.or_eq_true, beq_iff_eq] at h
    rcases h with ((h | h) | h) | h
    · obtain ⟨a, b⟩ := isLowerAlpha_toNat h; omega
    · obtain ⟨a, b⟩ := isDigitChar_toNat h; omega
    · subst h; exact absurd hu (by decide)
    · subst h; exact absurd hu (by decide)
  · exact Bool.eq_false_iff.mpr hu

theorem lowerChar_spec {c : Char} (h : isTagChar c = true) :
    isTagChar (lowerChar c) = true ∧ isLowerTagChar (lowerChar c) = true := by
  unfold lowerChar
  by_cases hu : isUpperAlpha c = true
  · rw [if_pos hu]
    obtain ⟨h1, h2⟩ := isUpperAlpha_toNat hu
    obtain ⟨n, hn⟩ : ∃ n, c.toNat = n := ⟨c.toNat, rfl⟩
    rw [hn] at h1 h2 ⊢
    interval_cases n <;> exact ⟨by decide, by decide⟩
  · rw [if_neg hu]
    refine ⟨h, ?_⟩
    have hu' : isUpperAlpha c = false := Bool.eq_false_iff.mpr hu
    simp only [isTagChar, Bool.or_eq_true] at h
    simp only [isLowerTagChar, Bool.or_eq_true]
    rcases h with (((h | h) | h) | h) | h
    · exact Or.inl (Or.inl (Or.inl h))
    · rw [hu'] at h; exact absurd h (by decide)
    · exact Or.inl (Or.inl (Or.inr h))
    · exact Or.inl (Or.inr h)
    · exact Or.inr h

theorem lowerChar_fix {c : Char} (h : isLowerTagChar c = true) :
    lowerChar c = c := by
  unfold lowerChar
  rw [if_neg]
  rw [isLowerTagChar_not_upper h]
  simp

theorem pyLower_fix {s : String} (h : s.data.all isLowerTagChar = true) :
    pyLower s = s := by
  unfold pyLower
  have : s.data.map lowerChar = s.data := by
    rw [List.all_eq_true] at h
    calc s.data.map lowerChar = s.data.map id :=
          List.map_congr_left (fun a ha => lowerChar_fix (h a ha))
      _ = s.data := List.map_id s.data
  rw [this]

theorem pyLower_all_lower {s : String} (h : s.data.all isTagChar = true) :
    (pyLower s).data.all isLowerTagChar = true := by
  rw [List.all_eq_true] at h ⊢
  intro a ha
  rw [show (pyLower s).data = s.data.map lowerChar from rfl] at ha
  obtain ⟨b, hb, rfl⟩ := List.mem_map.mp ha
  exact (lowerChar_spec (h b hb)).2

theorem pyLower_ne_nil {s : String} (h : s.data ≠ []) : (pyLower s).data ≠ [] := by
  rw [show (pyLower s).data = s.data.map lowerChar from rfl]
  simpa using h

/-! ## Deduplication lemmas -/

theorem mem_dedupSeen {α : Type} [DecidableEq α] (seen l : List α) (x : α) :
    x ∈ dedupSeen seen l ↔ x ∈ l ∧ x ∉ seen := by
  induction l generalizing seen with
  | nil => simp [dedupSeen]
  | cons y ys ih =>
    unfold dedupSeen
    by_cases hy : y ∈ seen
    · rw [if_pos hy, ih]
      simp only [List.mem_cons]
      constructor
      · rintro ⟨h1, h2⟩; exact ⟨Or.inr h1, h2⟩
      · rintro ⟨h1 | h1, h2⟩
        · exact absurd (h1 ▸ hy) h2
        · exact ⟨h1, h2⟩
    · rw [if_neg hy]
      simp only [List.mem_cons, ih (y :: seen)]
      by_cases hxy : x = y
      · subst hxy
        simp [hy]
      · simp [hxy]

theorem nodup_dedupSeen {α : Type} [DecidableEq α] (seen l : List α) :
    (dedupSeen seen l).Nodup := by
  induction l generalizing seen with
  | nil => exact List.nodup_nil
  | cons y ys ih =>
    unfold dedupSeen
    by_cases hy : y ∈ seen
    · rw [if_pos hy]; exact ih seen
    · rw [if_neg hy]
      refine List.nodup_cons.mpr ⟨?_, ih (y :: seen)⟩
      intro hmem
      exact ((mem_dedupSeen (y :: seen) ys y).mp hmem).2 (List.mem_cons_self y seen)

theorem dedupSeen_eq_self {α : Type} [DecidableEq α] {seen l : List α}
    (h : l.Nodup) (h2 : ∀ x ∈ l, x ∉ seen) : dedupSeen seen l = l := by
  induction l generalizing seen with
  | nil => rfl
  | cons y ys ih =>
    unfold dedupSeen
    rw [if_neg (h2 y (List.mem_cons_self y ys))]
    congr 1
    refine ih (List.nodup_cons.mp h).2 ?_
    intro x hx
    simp only [List.mem_cons, not_or]
    exact ⟨fun hxy => (List.nodup_cons.mp h).1 (hxy ▸ hx), h2 x (List.mem_cons_of_mem y hx)⟩

theorem mem_dedupFirst {α : Type} [DecidableEq α] (l : List α) (x : α) :
    x ∈ dedupFirst l ↔ x ∈ l := by
  rw [dedupFirst, mem_dedupSeen]
  simp

theorem nodup_dedupFirst {α : Type} [DecidableEq α] (l : List α) :
    (dedupFirst l).Nodup := nodup_dedupSeen [] l

theorem dedupFirst_eq_self {α : Type} [DecidableEq α] {l : List α}
    (h : l.Nodup) : dedupFirst l = l :=
  dedupSeen_eq_self h (by simp)

theorem dedupSeen_eq_specDedup {α : Type} [DecidableEq α] (seen l : List α) :
    dedupSeen seen l = specDedup (l.filter (fun x => decide (x ∉ seen))) := by
  induction l generalizing seen with
  | nil => simp [dedupSeen, specDedup]
  | cons y ys ih =>
    unfold dedupSeen
    rw [List.filter_cons]
    by_cases hy : y ∈ seen
    · rw [if_pos hy, if_neg (by simp [hy]), ih seen]
    · rw [if_neg hy, if_pos (by simp [hy])]
      rw [specDedup]
      congr 1
      rw [ih (y :: seen), List.filter_filter]
      congr 1
      apply List.filter_congr
      intro x _
      simp only [List.mem_cons, not_or, decide_not]
      by_cases hxy : x = y <;> by_cases hxs : x ∈ seen <;> simp [hxy, hxs]

theorem dedupFirst_eq_specDedup {α : Type} [DecidableEq α] (l : List α) :
    dedupFirst l = specDedup l := by
  rw [dedupFirst, dedupSeen_eq_specDedup]
  congr 1
  apply List.filter_eq_self.mpr
  simp

/-! ## Scanner lemmas -/

theorem takeWhile_append_all {α : Type} (p : α → Bool) (l ds : List α)
    (h : l.all p = true) (hds : ds.takeWhile p = []) :
    (l ++ ds).takeWhile p = l := by
  induction l with
  | nil => simpa using hds
  | cons c cs ih =>
    rw [List.all_cons, Bool.and_eq_true] at h
    rw [List.cons_append, List.takeWhile_cons, if_pos h.1]
    rw [ih h.2]

theorem findSigilTokensF_fuel (sigil : Char) :
    ∀ (k : Nat) (cs : List Char) (f g : Nat), cs.length ≤ k →
      cs.length ≤ f → cs.length ≤ g →
      findSigilTokensF sigil f cs = findSigilTokensF sigil g cs := by
  intro k
  induction k with
  | zero =>
    intro cs f g hk _ _
    have : cs = [] := List.eq_nil_of_length_eq_zero (Nat.le_zero.mp hk)
    subst this
    simp [findSigilTokensF]
  | succ k ih =>
    intro cs f g hk hf hg
    cases cs with
    | nil => simp [findSigilTokensF]
    | cons c rest =>
      simp only [List.length_cons] at hk hf hg
      cases f with
      | zero => omega
      | succ f =>
        cases g with
        | zero => omega
        | succ g =>
          simp only [findSigilTokensF]
          by_cases hc : c = sigil
          · rw [if_pos hc, if_pos hc]
            by_cases ht : (rest.takeWhile isTagChar).isEmpty
            · rw [if_pos ht, if_pos ht]
              exact ih rest f g (by omega) (by omega) (by omega)
            · rw [if_neg ht, if_neg ht]
              congr 1
              have hd : (rest.drop (rest.takeWhile isTagChar).length).length ≤
                  rest.length := by
                rw [List.length_drop]; omega
              exact ih _ f g (by omega) (by omega) (by omega)
          · rw [if_neg hc, if_neg hc]
            exact ih rest f g (by omega) (by omega) (by omega)

theorem findSigilTokens_nil (sigil : Char) : findSigilTokens sigil [] = [] := by
  simp [findSigilTokens, findSigilTokensF]

theorem findSigilTokens_cons (sigil c : Char) (rest : List Char) :
    findSigilTokens sigil (c :: rest) =
      if c = sigil then
        (if (rest.takeWhile isTagChar).isEmpty then findSigilTokens sigil rest
         else String.mk (rest.takeWhile isTagChar) ::
           findSigilTokens sigil (rest.drop (rest.takeWhile isTagChar).length))
      else findSigilTokens sigil rest := by
  show findSigilTokensF sigil (c :: rest).length (c :: rest) = _
  rw [List.length_cons]
  simp only [findSigilTokensF]
  by_cases hc : c = sigil
  · rw [if_pos hc, if_pos hc]
    by_cases ht : (rest.takeWhile isTagChar).isEmpty
    · rw [if_pos ht, if_pos ht]; rfl
    · rw [if_neg ht, if_neg ht]
      congr 1
      refine findSigilTokensF_fuel sigil rest.length _ _ _ ?_ ?_ le_rfl
      · rw [List.length_drop]; omega
      · rw [List.length_drop]; omega
  · rw [if_neg hc, if_neg hc]; rfl

theorem findSigilTokens_shape (sigil : Char) : (cs : List Char) →
    ∀ s ∈ findSigilTokens sigil cs, s.data ≠ [] ∧ s.data.all isTagChar = true
  | [] => by simp [findSigilTokens_nil]
  | c :: rest => by
    rw [findSigilTokens_cons]
    by_cases hc : c = sigil
    · rw [if_pos hc]
      by_cases ht : (rest.takeWhile isTagChar).isEmpty
      · rw [if_pos ht]
        exact findSigilTokens_shape sigil rest
      · rw [if_neg ht]
        intro s hs
        rcases List.mem_cons.mp hs with h | h
        · subst h
          refine ⟨by simpa [List.isEmpty_iff] using ht, ?_⟩
          rw [List.all_eq_true]
          intro a ha
          exact List.mem_takeWhile_imp ha
        · exact findSigilTokens_shape sigil (rest.drop _) s h
    · rw [if_neg hc]
      exact findSigilTokens_shape sigil rest
termination_by cs => cs.length
decreasing_by
  · simp
  · simp [List.length_drop]; omega
  · simp

theorem findSigilTokens_append_no_sigil (sigil : Char) (pre ds : List Char)
    (h : sigil ∉ pre) :
    findSigilTokens sigil (pre ++ ds) = findSigilTokens sigil ds := by
  induction pre with
  | nil => rfl
  | cons c cs ih =>
    have hc : ¬(c = sigil) := fun hh => h (hh ▸ List.mem_cons_self c cs)
    rw [List.cons_append, findSigilTokens_cons, if_neg hc]
    exact ih (fun hm => h (List.mem_cons_of_mem c hm))

theorem findSigilTokens_emit (sigil : Char) (tok ds : List Char)
    (hne : tok ≠ []) (hall : tok.all isTagChar = true)
    (hds : ds.takeWhile isTagChar = []) :
    findSigilTokens sigil (sigil :: (tok ++ ds)) =
      String.mk tok :: findSigilTokens sigil ds := by
  rw [findSigilTokens_cons, if_pos rfl]
  rw [takeWhile_append_all isTagChar tok ds hall hds]
  rw [if_neg (by simpa [List.isEmpty_iff] using hne)]
  rw [List.drop_left tok ds]

theorem specScanAux_eq (sigil : Char) : (cs : List Char) → (acc : List String) →
    specScanAux sigil cs acc = acc.reverse ++ findSigilTokens sigil cs
  | [], acc => by simp [specScanAux, findSigilTokens_nil]
  | c :: rest, acc => by
    rw [findSigilTokens_cons]
    unfold specScanAux
    by_cases hc : c = sigil
    · by_cases ht : (rest.takeWhile isTagChar).isEmpty
      · rw [if_neg (by simp [List.isEmpty_iff.mp ht]), if_pos hc, if_pos ht]
        exact specScanAux_eq sigil rest acc
      · rw [if_pos ⟨hc, by simpa [List.isEmpty_iff] using ht⟩, if_pos hc,
          if_neg ht]
        rw [specScanAux_eq sigil (rest.drop _) _]
        simp
    · rw [if_neg (fun hh => hc hh.1), if_neg hc]
      exact specScanAux_eq sigil rest acc
termination_by cs _ => cs.length
decreasing_by
  · simp
  · simp [List.length_drop]; omega
  · simp

/-! ## `parse_tags` projection lemmas -/

theorem parse_tags_text_eq (text : String) : (parse_tags text).1 = text := by
  unfold parse_tags
  by_cases he : text.data.isEmpty
  · rw [if_pos he]
  · rw [if_neg he]

theorem parse_tags_categories_eq (text : String) :
    (parse_tags text).2.1 =
      dedupFirst ((findSigilTokens '@' text.data).map pyLower) := by
  unfold parse_tags
  by_cases he : text.data.isEmpty
  · rw [if_pos he, List.isEmpty_iff.mp he, findSigilTokens_nil]
    rfl
  · rw [if_neg he]

theorem parse_tags_tags_eq (text : String) :
    (parse_tags text).2.2 =
      dedupFirst ((findSigilTokens '#' text.data).map pyLower) := by
  unfold parse_tags
  by_cases he : text.data.isEmpty
  · rw [if_pos he, List.isEmpty_iff.mp he, findSigilTokens_nil]
    rfl
  · rw [if_neg he]

theorem parse_tokens_shape {text tok : String}
    (h : tok ∈ (parse_tags text).2.1 ∨ tok ∈ (parse_tags text).2.2) :
    tok.data ≠ [] ∧ tok.data.all isLowerTagChar = true := by
  rcases h with h | h
  · rw [parse_tags_categories_eq, mem_dedupFirst] at h
    obtain ⟨t0, ht0, rfl⟩ := List.mem_map.mp h
    obtain ⟨hne, hall⟩ := findSigilTokens_shape '@' text.data t0 ht0
    exact ⟨pyLower_ne_nil hne, pyLower_all_lower hall⟩
  · rw [parse_tags_tags_eq, mem_dedupFirst] at h
    obtain ⟨t0, ht0, rfl⟩ := List.mem_map.mp h
    obtain ⟨hne, hall⟩ := findSigilTokens_shape '#' text.data t0 ht0
    exact ⟨pyLower_ne_nil hne, pyLower_all_lower hall⟩

theorem parse_tokens_nodup (text : String) :
    (parse_tags text).2.1.Nodup ∧ (parse_tags text).2.2.Nodup := by
  rw [parse_tags_categories_eq, parse_tags_tags_eq]
  exact ⟨nodup_dedupFirst _, nodup_dedupFirst _⟩

/-! ## Reconstruction lemmas (for the idempotence claim) -/

theorem joinSpaces_data : (items : List (Char × String)) →
    (joinSpaces (items.map (fun it => String.mk (it.1 :: it.2.data)))).data =
      reconChars items
  | [] => rfl
  | [(_, _)] => rfl
  | (sig, tok) :: it2 :: rest => by
    have step :
        joinSpaces (String.mk (sig :: tok.data) ::
            ((it2 :: rest).map (fun it => String.mk (it.1 :: it.2.data)))) =
          String.mk (sig :: tok.data) ++ " " ++
            joinSpaces ((it2 :: rest).map (fun it => String.mk (it.1 :: it.2.data))) := by
      rw [List.map_cons]
      rfl
    show (joinSpaces (String.mk (sig :: tok.data) :: _)).data = _
    rw [step, String.data_append, String.data_append]
    rw [joinSpaces_data (it2 :: rest)]
    show (sig :: tok.data) ++ [' '] ++ reconChars (it2 :: rest) =
      sig :: (tok.data ++ ' ' :: reconChars (it2 :: rest))
    simp

theorem scan_reconChars (sigil : Char) (hsig : isTagChar sigil = false)
    (hsp : sigil ≠ ' ') : (items : List (Char × String)) →
    (∀ it ∈ items, it.2.data ≠ [] ∧ it.2.data.all isTagChar = true) →
    findSigilTokens sigil (reconChars items) =
      (items.filter (fun it => it.1 == sigil)).map (fun it => it.2)
  | [], _ => by simp [reconChars, findSigilTokens_nil]
  | [(sig, tok)], hit => by
    obtain ⟨hne, hall⟩ := hit (sig, tok) (List.mem_cons_self _ _)
    have hnotin : sigil ∉ tok.data := fun hmem => by
      have := List.all_eq_true.mp hall sigil hmem
      rw [hsig] at this
      exact absurd this (by decide)
    show findSigilTokens sigil (sig :: tok.data) = _
    by_cases hs : sig = sigil
    · subst hs
      have hemit := findSigilTokens_emit sig tok.data [] hne hall rfl
      rw [List.append_nil] at hemit
      rw [hemit, findSigilTokens_nil]
      simp [List.filter_cons]
    · rw [findSigilTokens_cons, if_neg hs]
      have hskip := findSigilTokens_append_no_sigil sigil tok.data [] hnotin
      rw [List.append_nil] at hskip
      rw [hskip, findSigilTokens_nil]
      simp [List.filter_cons, hs]
  | (sig, tok) :: it2 :: rest, hit => by
    obtain ⟨hne, hall⟩ := hit (sig, tok) (List.mem_cons_self _ _)
    have hit2 : ∀ it ∈ it2 :: rest, it.2.data ≠ [] ∧ it.2.data.all isTagChar = true :=
      fun it hm => hit it (List.mem_cons_of_mem _ hm)
    have hnotin : sigil ∉ tok.data := fun hmem => by
      have := List.all_eq_true.mp hall sigil hmem
      rw [hsig] at this
      exact absurd this (by decide)
    have hspace : findSigilTokens sigil (' ' :: reconChars (it2 :: rest)) =
        findSigilTokens sigil (reconChars (it2 :: rest)) := by
      rw [findSigilTokens_cons, if_neg (fun hh => hsp hh.symm)]
    have ihrec := scan_reconChars sigil hsig hsp (it2 :: rest) hit2
    show findSigilTokens sigil (sig :: (tok.data ++ ' ' :: reconChars (it2 :: rest))) = _
    by_cases hs : sig = sigil
    · subst hs
      have hemit := findSigilTokens_emit sig tok.data
        (' ' :: reconChars (it2 :: rest)) hne hall
        (by rw [List.takeWhile_cons, if_neg (by decide)])
      rw [hemit, hspace, ihrec]
      simp [List.filter_cons]
    · rw [findSigilTokens_cons, if_neg hs]
      rw [findSigilTokens_append_no_sigil sigil tok.data _ hnotin]
      rw [hspace, ihrec]
      simp [List.filter_cons, hs]
termination_by items _ => items.length

/-! ## Remaining helper lemmas -/

theorem specDedup_nil {α : Type} [DecidableEq α] : specDedup ([] : List α) = [] := by
  rw [← dedupFirst_eq_specDedup]
  rfl

theorem validate_lower_token {tok : String} (hne : tok.data ≠ [])
    (hall : tok.data.all isLowerTagChar = true) :
    validate_tag_format tok = true ↔ tok.length ≤ 50 := by
  unfold validate_tag_format
  rw [if_neg (by simpa [List.isEmpty_iff] using hne)]
  by_cases hl : tok.length > 50
  · rw [if_pos hl]
    simp
    omega
  · rw [if_neg hl]
    have hta : tok.data.all isTagChar = true := by
      rw [List.all_eq_true] at hall ⊢
      intro a ha
      exact isLowerTagChar_isTagChar (hall a ha)
    simp [hta]
    omega

theorem task_categories_of_shaped {r : TaskRec} (h : specShaped r = true) :
    task_categories_of r = some (specRecordCategories r) := by
  cases r with
  | str s => rfl
  | dict t cats tg ts =>
    cases cats with
    | some cs => rfl
    | none =>
      cases t with
      | none => exact absurd h (by simp [specShaped])
      | some inner =>
        cases inner with
        | str s => rfl
        | dict it ic ig its =>
          cases ic with
          | some cs => rfl
          | none =>
            cases it with
            | none => exact absurd h (by simp [specShaped])
            | some iit =>
              cases iit with
              | str s => rfl
              | dict a b c d => exact absurd h (by simp [specShaped])

/-! ## Claim theorems -/

/-- Claim C1: for every string, `parse_tags` finds the `@`-categories and
`#`-tags by a left-to-right scan for sigil-prefixed runs of one-or-more
characters from `[A-Za-z0-9_-]`, lowercases them, and removes duplicates
keeping first occurrences (stated as agreement with the spec-side scan
and dedup); empty text yields two empty lists, and a bare sigil
contributes nothing (the two closed examples). -/
theorem claim_C1_parse_tags (text : String) :
    (parse_tags text).2.1 = specDedup ((specScanTokens '@' text.data).map pyLower)
    ∧ (parse_tags text).2.2 = specDedup ((specScanTokens '#' text.data).map pyLower)
    ∧ parse_tags "" = ("", [], [])
    ∧ parse_tags "Fix @Work @work #Urgent" =
        ("Fix @Work @work #Urgent", ["work"], ["urgent"])
    ∧ parse_tags "a @ b #" = ("a @ b #", [], []) := by
  refine ⟨?_, ?_, rfl, by decide, by decide⟩
  · rw [parse_tags_categories_eq, dedupFirst_eq_specDedup]
    unfold specScanTokens
    rw [specScanAux_eq '@' text.data []]
    rfl
  · rw [parse_tags_tags_eq, dedupFirst_eq_specDedup]
    unfold specScanTokens
    rw [specScanAux_eq '#' text.data []]
    rfl

/-- Claim C5 counter-evidence: `validate_tag_format` accepts the token
`"work\n"` although it contains a newline, which is outside
`[A-Za-z0-9_-]` — Python `re.match` with `$` matches just before a
trailing newline, contradicting the claimed full-string character-class
check (the code docstring says only letters, numbers, underscores and
hyphens are valid). -/
theorem claim_C5_newline_quirk :
    validate_tag_format "work\n" = true
    ∧ ("work\n").length ≤ 50
    ∧ ("work\n").data.all isTagChar = false
    ∧ validate_tag_format "work!" = false
    ∧ validate_tag_format "work" = true := by decide

/-- Claim C8: normalizing a record that already carries both `categories`
and `tags` is a no-op — `migrate_task_to_tagged_format` returns the dict
unchanged (hence value-equal on its text, categories and tags). -/
theorem claim_C8_migrate_noop (t : Option TaskRec) (cs tg : List String)
    (ts : Option String) :
    migrate_task_to_tagged_format (.dict t (some cs) (some tg) ts) =
      some (.dict t (some cs) (some tg) ts) := rfl

/-- Claim C2: `filter_single_task_by_categories` accepts every record
shape the spec enumerates when the filter is empty, and otherwise matches
exactly when the record categories (stored, or parsed on the fly from the
record text) intersect the requested categories — OR semantics. -/
theorem claim_C2_matches (r : TaskRec) (fc : List String)
    (h : specShaped r = true) :
    filter_single_task_by_categories r [] = some true
    ∧ (filter_single_task_by_categories r fc = some true ↔
        (fc = [] ∨ ∃ c ∈ fc, c ∈ specRecordCategories r)) := by
  refine ⟨rfl, ?_⟩
  unfold filter_single_task_by_categories
  cases fc with
  | nil => simp
  | cons f fs =>
    rw [if_neg (by simp)]
    rw [task_categories_of_shaped h]
    simp [List.any_eq_true, List.elem_iff]

/-- Witness for claim C2 at the legacy plain-string record of the spec:
`"Buy milk @personal"` filtered by `["personal"]`. -/
theorem claim_C2_matches_witness :
    specShaped (TaskRec.str "Buy milk @personal") = true
    ∧ (filter_single_task_by_categories (TaskRec.str "Buy milk @personal") [] =
        some true
      ∧ (filter_single_task_by_categories (TaskRec.str "Buy milk @personal")
            ["personal"] = some true ↔
          ((["personal"] : List String) = [] ∨
            ∃ c ∈ ["personal"],
              c ∈ specRecordCategories (TaskRec.str "Buy milk @personal")))) :=
  ⟨by decide, claim_C2_matches (TaskRec.str "Buy milk @personal") ["personal"]
    (by decide)⟩

/-- Unfolding of `parse_filter_categories` on a present filter string. -/
theorem parse_filter_categories_some (s : String) :
    parse_filter_categories (some s) =
      if s.data.isEmpty then (true, [], "")
      else if (filterPieces s).isEmpty then (true, [], "")
      else parseFilterGo [] (filterPieces s) := rfl

/-- The success run of the `parse_filter_categories` loop: when every
piece carries the sigil and a valid name, the lowercased names are
collected in order and deduplicated at the end. -/
theorem parseFilterGo_ok : (pieces : List String) → (acc : List String) →
    (∀ p ∈ pieces,
      startsWithAt p = true ∧ validate_tag_format (dropFirst p) = true) →
    parseFilterGo acc pieces =
      (true, dedupFirst (acc ++ pieces.map (fun p => pyLower (dropFirst p))), "")
  | [], acc, _ => by simp [parseFilterGo]
  | p :: ps, acc, h => by
    obtain ⟨h1, h2⟩ := h p (List.mem_cons_self _ _)
    unfold parseFilterGo
    simp only [h1, h2, Bool.not_true, Bool.false_eq_true, if_false]
    rw [parseFilterGo_ok ps (acc ++ [pyLower (dropFirst p)])
      (fun q hq => h q (List.mem_cons_of_mem _ hq))]
    simp

/-- Claim C3: a well-formed filter string parses successfully to the
lowercased, order-preserving, deduplicated sigil-free category names;
the pieces are the comma-split, whitespace-trimmed, non-empty fragments;
absent and empty input succeed with the empty list, and the spec example
`" , @work ,, "` parses to `["work"]`. -/
theorem claim_C3_filter_ok (s : String)
    (h : ∀ p ∈ filterPieces s,
      startsWithAt p = true ∧ validate_tag_format (dropFirst p) = true) :
    parse_filter_categories (some s) =
      (true, specDedup ((filterPieces s).map (fun p => pyLower (dropFirst p))), "")
    ∧ parse_filter_categories none = (true, [], "")
    ∧ parse_filter_categories (some "") = (true, [], "")
    ∧ parse_filter_categories (some " , @work ,, ") = (true, ["work"], "") := by
  refine ⟨?_, rfl, by decide, by decide⟩
  rw [parse_filter_categories_some]
  by_cases he : s.data.isEmpty
  · rw [if_pos he]
    cases s with
    | mk d =>
      have hd : d = [] := List.isEmpty_iff.mp he
      subst hd
      rw [show filterPieces (String.mk []) = [] from rfl]
      rw [List.map_nil, specDedup_nil]
  · rw [if_neg he]
    by_cases hr : (filterPieces s).isEmpty
    · rw [if_pos hr]
      rw [List.isEmpty_iff.mp hr, List.map_nil, specDedup_nil]
    · rw [if_neg hr]
      rw [parseFilterGo_ok (filterPieces s) [] h]
      rw [List.nil_append, dedupFirst_eq_specDedup]

/-- Witness for claim C3 at the spec example `"@work, @personal"`. -/
theorem claim_C3_filter_ok_witness :
    (∀ p ∈ filterPieces "@work, @personal",
      startsWithAt p = true ∧ validate_tag_format (dropFirst p) = true)
    ∧ (parse_filter_categories (some "@work, @personal") =
        (true,
          specDedup ((filterPieces "@work, @personal").map
            (fun p => pyLower (dropFirst p))), "")
      ∧ parse_filter_categories none = (true, [], "")
      ∧ parse_filter_categories (some "") = (true, [], "")
      ∧ parse_filter_categories (some " , @work ,, ") = (true, ["work"], "")) :=
  ⟨by decide, claim_C3_filter_ok "@work, @personal" (by decide)⟩

/-- The fail-fast run of the `parse_filter_categories` loop: the first
invalid piece determines the single error returned. -/
theorem parseFilterGo_err : (pre : List String) → (p : String) →
    (post acc : List String) →
    (∀ q ∈ pre,
      startsWithAt q = true ∧ validate_tag_format (dropFirst q) = true) →
    ¬(startsWithAt p = true ∧ validate_tag_format (dropFirst p) = true) →
    parseFilterGo acc (pre ++ p :: post) =
      (if startsWithAt p then (false, [], invalidFormatMsg p)
       else (false, [], missingSigilMsg p))
  | [], p, post, acc, _, hbad => by
    rw [List.nil_append]
    unfold parseFilterGo
    by_cases h1 : startsWithAt p = true
    · have h2 : validate_tag_format (dropFirst p) = false := by
        cases hv : validate_tag_format (dropFirst p) with
        | false => rfl
        | true => exact absurd ⟨h1, hv⟩ hbad
      simp [h1, h2]
    · have h1' : startsWithAt p = false := Bool.eq_false_iff.mpr h1
      simp [h1']
  | q :: pre, p, post, acc, hpre, hbad => by
    obtain ⟨h1, h2⟩ := hpre q (List.mem_cons_self _ _)
    rw [List.cons_append]
    unfold parseFilterGo
    simp only [h1, h2, Bool.not_true, Bool.false_eq_true, if_false]
    exact parseFilterGo_err pre p post _
      (fun r hr => hpre r (List.mem_cons_of_mem _ hr)) hbad

/-- Claim C4: an invalid filter string fails on its first invalid piece —
with the missing-sigil error naming the piece when it does not start with
`@`, and the invalid-format error naming the piece when its name fails
the validator; the failure is an error value of the total function, never
an exception. -/
theorem claim_C4_filter_err (s : String) (pre : List String) (p : String)
    (post : List String)
    (hsplit : filterPieces s = pre ++ p :: post)
    (hpre : ∀ q ∈ pre,
      startsWithAt q = true ∧ validate_tag_format (dropFirst q) = true)
    (hbad : ¬(startsWithAt p = true ∧ validate_tag_format (dropFirst p) = true)) :
    parse_filter_categories (some s) =
      (if startsWithAt p then
        (false, [], "Invalid category format: \x27" ++ p ++
          "\x27. Use letters, numbers, underscores, and hyphens only.")
       else
        (false, [], "Categories must start with @. Invalid: \x27" ++ p ++ "\x27")) := by
  rw [parse_filter_categories_some]
  have hne : ¬(filterPieces s).isEmpty = true := by
    rw [hsplit]
    simp [List.isEmpty_iff]
  by_cases he : s.data.isEmpty
  · exfalso
    cases s with
    | mk d =>
      have hd : d = [] := List.isEmpty_iff.mp he
      subst hd
      rw [show filterPieces (String.mk []) = [] from rfl] at hsplit
      exact absurd hsplit.symm (by simp)
  · rw [if_neg he, if_neg hne, hsplit]
    exact parseFilterGo_err pre p post [] hpre hbad

/-- Witness for claim C4 at the spec example `"work,personal"`: the first
piece `"work"` lacks the sigil. -/
theorem claim_C4_filter_err_witness :
    filterPieces "work,personal" = [] ++ "work" :: ["personal"]
    ∧ parse_filter_categories (some "work,personal") =
        (if startsWithAt "work" then
          (false, [], "Invalid category format: \x27" ++ "work" ++
            "\x27. Use letters, numbers, underscores, and hyphens only.")
         else
          (false, [], "Categories must start with @. Invalid: \x27" ++ "work" ++
            "\x27")) :=
  ⟨by decide, claim_C4_filter_err "work,personal" [] "work" ["personal"]
    (by decide) (by simp) (by decide)⟩

/-- Claim C6: the collection filter agrees pointwise with the
single-record matcher — `filter_tasks_by_categories` returns exactly the
records accepted by `filter_single_task_by_categories`, in their original
order (`List.filter` preserves relative order; the embedding is pure, so
neither the input list nor its records are mutated). -/
theorem claim_C6_filter_pointwise (records : List TaskRec) (fc : List String)
    (h : ∀ r ∈ records, (task_categories_of r).isSome = true) :
    filter_tasks_by_categories records fc =
      some (records.filter
        (fun r => decide (filter_single_task_by_categories r fc = some true))) := by
  unfold filter_tasks_by_categories
  by_cases hfc : fc.isEmpty
  · rw [if_pos hfc]
    have hall : ∀ r ∈ records,
        decide (filter_single_task_by_categories r fc = some true) = true := by
      intro r _
      have : filter_single_task_by_categories r fc = some true := by
        unfold filter_single_task_by_categories
        rw [if_pos hfc]
      simp [this]
    rw [List.filter_eq_self.mpr hall]
  · rw [if_neg hfc]
    revert h
    induction records with
    | nil => intro _; rfl
    | cons r rs ih =>
      intro h
      obtain ⟨tcs, htcs⟩ := Option.isSome_iff_exists.mp
        (h r (List.mem_cons_self _ _))
      unfold filterTasksGo
      rw [htcs, ih (fun q hq => h q (List.mem_cons_of_mem _ hq))]
      rw [List.filter_cons]
      have hsingle : filter_single_task_by_categories r fc =
          some (fc.any (fun cat => tcs.contains cat)) := by
        unfold filter_single_task_by_categories
        rw [if_neg hfc, htcs]
        rfl
      cases hany : fc.any (fun cat => tcs.contains cat) with
      | true => simp [hsingle, hany]
      | false => simp [hsingle, hany]

/-- Witness for claim C6 at the three-record example of the spec
(§8, OR semantics). -/
theorem claim_C6_filter_pointwise_witness :
    (∀ r ∈ [TaskRec.dict none (some ["work"]) (some []) none,
            TaskRec.dict none (some ["personal"]) (some []) none,
            TaskRec.dict none (some ["work", "personal"]) (some []) none],
      (task_categories_of r).isSome = true)
    ∧ filter_tasks_by_categories
        [TaskRec.dict none (some ["work"]) (some []) none,
         TaskRec.dict none (some ["personal"]) (some []) none,
         TaskRec.dict none (some ["work", "personal"]) (some []) none]
        ["work"] =
      some ([TaskRec.dict none (some ["work"]) (some []) none,
             TaskRec.dict none (some ["personal"]) (some []) none,
             TaskRec.dict none (some ["work", "personal"]) (some []) none].filter
        (fun r => decide (filter_single_task_by_categories r ["work"] = some true))) :=
  ⟨by intro r hr; fin_cases hr <;> rfl,
   claim_C6_filter_pointwise _ ["work"] (by intro r hr; fin_cases hr <;> rfl)⟩

/-- Claim C9: completing a non-empty active task appends exactly one new
done entry at the end — its id the first 8 characters of the fresh
`uuid4().hex` (hence 8 lowercase hex characters), its task the previous
active task (wrapped into the canonical dict by `create_task_data` when
it was a legacy string), its timestamp the completion time — and clears
the active task; the earlier done entries are untouched, in order, by
construction of the appended list. -/
theorem claim_C9_complete (todo : TaskRec) (done : List DoneItem)
    (uuidHex now : String)
    (hhex : uuidHex.data.length = 32 ∧ uuidHex.data.all isHexChar = true)
    (hsh : completableShape todo = true) :
    complete_current_task ⟨some todo, done⟩ uuidHex now =
      some ⟨none, done ++ [{ id := String.mk (uuidHex.data.take 8),
                             task := match todo with
                                     | .str s => create_task_data s now
                                     | t => t,
                             ts := now }]⟩
    ∧ (String.mk (uuidHex.data.take 8)).data.length = 8
    ∧ (String.mk (uuidHex.data.take 8)).data.all isHexChar = true := by
  refine ⟨?_, ?_, ?_⟩
  · cases todo with
    | str s => rfl
    | dict t cs tg ts =>
      cases t with
      | none => exact absurd hsh (by simp [completableShape])
      | some tt => rfl
  · show (uuidHex.data.take 8).length = 8
    rw [List.length_take]
    omega
  · show (uuidHex.data.take 8).all isHexChar = true
    rw [List.all_eq_true] at hhex ⊢
    intro a ha
    exact hhex.2 a (List.mem_of_mem_take ha)

/-- Witness for claim C9: completing a legacy string task under a fixed
uuid and timestamp. -/
theorem claim_C9_complete_witness :
    (("0123456789abcdef0123456789abcdef" : String).data.length = 32
      ∧ ("0123456789abcdef0123456789abcdef" : String).data.all isHexChar = true)
    ∧ completableShape (TaskRec.str "Buy milk @home") = true
    ∧ (complete_current_task ⟨some (TaskRec.str "Buy milk @home"), []⟩
          "0123456789abcdef0123456789abcdef" "2024-01-02T03:04:05" =
        some ⟨none, [] ++ [{ id := String.mk
                               (("0123456789abcdef0123456789abcdef" : String).data.take 8),
                             task := match TaskRec.str "Buy milk @home" with
                                     | .str s => create_task_data s "2024-01-02T03:04:05"
                                     | t => t,
                             ts := "2024-01-02T03:04:05" }]⟩
      ∧ (String.mk (("0123456789abcdef0123456789abcdef" : String).data.take 8)).data.length = 8
      ∧ (String.mk (("0123456789abcdef0123456789abcdef" : String).data.take 8)).data.all isHexChar = true) :=
  ⟨⟨by decide, by decide⟩, by decide,
   claim_C9_complete (TaskRec.str "Buy milk @home") []
     "0123456789abcdef0123456789abcdef" "2024-01-02T03:04:05"
     ⟨by decide, by decide⟩ (by decide)⟩

/-- Claim C10: every token `parse_tags` returns is non-empty and consists
only of characters in `[a-z0-9_-]`, and therefore passes
`validate_tag_format` exactly when it is at most 50 characters long;
consequently the tag-validation pass of `validate_task_name_with_tags`
can only fail on an over-long token, never on a character-set
violation. -/
theorem claim_C10_token_validation :
    (∀ text tok : String,
      (tok ∈ (parse_tags text).2.1 ∨ tok ∈ (parse_tags text).2.2) →
      tok.data ≠ [] ∧ tok.data.all isLowerTagChar = true ∧
        (validate_tag_format tok = true ↔ tok.length ≤ 50))
    ∧ (∀ text : String, (validate_task_name_with_tags text).1 = false →
        (validate_task_name text).1 = false ∨
        ∃ tok : String,
          (tok ∈ (parse_tags text).2.1 ∨ tok ∈ (parse_tags text).2.2) ∧
            50 < tok.length) := by
  constructor
  · intro text tok h
    obtain ⟨hne, hall⟩ := parse_tokens_shape h
    exact ⟨hne, hall, validate_lower_token hne hall⟩
  · intro text h
    cases hv : validate_task_name text with
    | mk b msg =>
      cases b with
      | false => exact Or.inl rfl
      | true =>
        cases hf1 : (parse_tags text).2.1.find? (fun c => !(validate_tag_format c)) with
        | some c =>
          have hcmem := List.mem_of_find?_eq_some hf1
          have hcval : validate_tag_format c = false := by
            have := List.find?_some hf1
            simpa using this
          obtain ⟨hne, hall⟩ := parse_tokens_shape (Or.inl hcmem)
          refine Or.inr ⟨c, Or.inl hcmem, ?_⟩
          by_contra hgt
          have hle : c.length ≤ 50 := by omega
          have hval := (validate_lower_token hne hall).mpr hle
          rw [hcval] at hval
          exact absurd hval (by decide)
        | none =>
          cases hf2 : (parse_tags text).2.2.find? (fun t => !(validate_tag_format t)) with
          | some t =>
            have htmem := List.mem_of_find?_eq_some hf2
            have htval : validate_tag_format t = false := by
              have := List.find?_some hf2
              simpa using this
            obtain ⟨hne, hall⟩ := parse_tokens_shape (Or.inr htmem)
            refine Or.inr ⟨t, Or.inr htmem, ?_⟩
            by_contra hgt
            have hle : t.length ≤ 50 := by omega
            have hval := (validate_lower_token hne hall).mpr hle
            rw [htval] at hval
            exact absurd hval (by decide)
          | none =>
            exfalso
            simp [validate_task_name_with_tags, hv, hf1, hf2] at h

/-- Filtering a uniformly sigil-tagged token list for one sigil keeps all
of it or none of it. -/
theorem filterPairs (sig sigil : Char) (l : List String) :
    ((l.map (fun t => (sig, t))).filter (fun it => it.1 == sigil)).map
      (fun it => it.2) = if (sig == sigil) = true then l else [] := by
  induction l with
  | nil => by_cases h : (sig == sigil) = true <;> simp [h]
  | cons x xs ih =>
    by_cases h : (sig == sigil) = true <;>
      simp [List.filter_cons, h] at ih ⊢ <;> exact ih

/-- Re-parsing a space-joined list of sigil-prefixed, non-empty,
lowercase-class, duplicate-free tokens returns exactly those tokens. -/
theorem parse_recon (cats tgs : List String)
    (hcn : cats.Nodup) (htn : tgs.Nodup)
    (hc : ∀ t ∈ cats, t.data ≠ [] ∧ t.data.all isLowerTagChar = true)
    (ht : ∀ t ∈ tgs, t.data ≠ [] ∧ t.data.all isLowerTagChar = true) :
    (parse_tags (reconString cats tgs)).2.1 = cats ∧
    (parse_tags (reconString cats tgs)).2.2 = tgs := by
  set items := cats.map (fun c => ('@', c)) ++ tgs.map (fun t => ('#', t))
    with hitems
  have hdata : (reconString cats tgs).data = reconChars items := by
    unfold reconString
    have e1 : cats.map (fun c => "@" ++ c) =
        cats.map ((fun it : Char × String => String.mk (it.1 :: it.2.data)) ∘
          (fun c => ('@', c))) :=
      List.map_congr_left (fun c _ => by cases c with | mk d => rfl)
    have e2 : tgs.map (fun t => "#" ++ t) =
        tgs.map ((fun it : Char × String => String.mk (it.1 :: it.2.data)) ∘
          (fun t => ('#', t))) :=
      List.map_congr_left (fun t _ => by cases t with | mk d => rfl)
    have hmaps : cats.map (fun c => "@" ++ c) ++ tgs.map (fun t => "#" ++ t)
        = items.map (fun it => String.mk (it.1 :: it.2.data)) := by
      rw [hitems, List.map_append, List.map_map, List.map_map, e1, e2]
    rw [hmaps, joinSpaces_data]
  have hit : ∀ it ∈ items, it.2.data ≠ [] ∧ it.2.data.all isTagChar = true := by
    intro it hmem
    rw [hitems] at hmem
    rcases List.mem_append.mp hmem with hm | hm
    · obtain ⟨c, hcmem, rfl⟩ := List.mem_map.mp hm
      obtain ⟨h1, h2⟩ := hc c hcmem
      refine ⟨h1, ?_⟩
      rw [List.all_eq_true] at h2 ⊢
      exact fun a ha => isLowerTagChar_isTagChar (h2 a ha)
    · obtain ⟨t, htmem, rfl⟩ := List.mem_map.mp hm
      obtain ⟨h1, h2⟩ := ht t htmem
      refine ⟨h1, ?_⟩
      rw [List.all_eq_true] at h2 ⊢
      exact fun a ha => isLowerTagChar_isTagChar (h2 a ha)
  have hscan1 : findSigilTokens '@' (reconChars items) = cats := by
    rw [scan_reconChars '@' (by decide) (by decide) items hit]
    rw [hitems, List.filter_append, List.map_append]
    rw [filterPairs '@' '@' cats, filterPairs '#' '@' tgs]
    simp
  have hscan2 : findSigilTokens '#' (reconChars items) = tgs := by
    rw [scan_reconChars '#' (by decide) (by decide) items hit]
    rw [hitems, List.filter_append, List.map_append]
    rw [filterPairs '@' '#' cats, filterPairs '#' '#' tgs]
    simp
  have hfix1 : cats.map pyLower = cats := by
    calc cats.map pyLower = cats.map id :=
          List.map_congr_left (fun t htm => pyLower_fix (hc t htm).2)
      _ = cats := List.map_id cats
  have hfix2 : tgs.map pyLower = tgs := by
    calc tgs.map pyLower = tgs.map id :=
          List.map_congr_left (fun t htm => pyLower_fix (ht t htm).2)
      _ = tgs := List.map_id tgs
  constructor
  · rw [parse_tags_categories_eq, hdata, hscan1, hfix1, dedupFirst_eq_self hcn]
  · rw [parse_tags_tags_eq, hdata, hscan2, hfix2, dedupFirst_eq_self htn]

/-- Claim C7: `parse_tags` is idempotent — re-parsing the text
reconstructed from a parse result (categories re-prefixed with `@`, tags
with `#`, joined by spaces) returns the same categories and the same tags
in the same order. -/
theorem claim_C7_idempotent (T : String) :
    (parse_tags (reconString (parse_tags T).2.1 (parse_tags T).2.2)).2.1 =
      (parse_tags T).2.1
    ∧ (parse_tags (reconString (parse_tags T).2.1 (parse_tags T).2.2)).2.2 =
      (parse_tags T).2.2 := by
  obtain ⟨hnodc, hnodt⟩ := parse_tokens_nodup T
  exact parse_recon (parse_tags T).2.1 (parse_tags T).2.2 hnodc hnodt
    (fun t htm => parse_tokens_shape (Or.inl htm))
    (fun t htm => parse_tokens_shape (Or.inr htm))

end TaskTracker
